/-
Verification of the TOC-based document chunker (node_chunker package).

Shallow embedding of:
  * src/node_chunker/document_chunking.py — TOCNode, PDFTOCChunker.build_toc_tree,
    PDFTOCChunker._process_outline, PDFTOCChunker._set_end_pages_and_content,
    PDFTOCChunker._extract_content, PDFTOCChunker.get_all_nodes,
    PDFTOCChunker.get_text_nodes
    (src/node_chunker/pdf_chunking.py carries the same algorithms line for line)
  * src/node_chunker/data_model.py — DocumentNode, DocumentGraph.add_child,
    DocumentGraph.get_parent, DocumentGraph.get_ancestors

Modelling conventions:
  * The PDF document is a `List String` of page texts; `page.get_text()` for page
    index i is the i-th list entry; `doc.page_count` is the list length.
  * Page numbers are `Int` (the Python code computes `page - 1`, `next - 1` and
    compares against `page_count - 1`, all of which may go negative).
  * A PyMuPDF TOC entry `[level, title, page]` is a `TOCItem`.
  * The mutable `TOCNode` tree (parent/children pointers) is the inductive
    `TOCTree`; the parent pointer is implicit in the tree structure.
  * `uuid4` node ids of `get_text_nodes` are modelled as pre-order indices
    (object identity ↦ position in the pre-order listing, a bijection).
-/
import Mathlib

structure TOCItem where
  level : Int
  title : String
  page : Int
deriving DecidableEq, Repr

/-- `page_num = page_num - 1 if page_num > 0 else 0` (document_chunking.py:115). -/
def adjustPage (p : Int) : Int := if p > 0 then p - 1 else 0

/-- The `TOCNode` tree of document_chunking.py (title, page_num, level, content,
end_page, children); the `parent` back-pointer is implicit. -/
inductive TOCTree : Type where
  | node (title : String) (pageNum : Int) (level : Nat) (content : String)
      (endPage : Option Int) (children : List TOCTree)
deriving Repr

def TOCTree.title : TOCTree → String
  | .node t _ _ _ _ _ => t

def TOCTree.startPage : TOCTree → Int
  | .node _ p _ _ _ _ => p

def TOCTree.level : TOCTree → Nat
  | .node _ _ lv _ _ _ => lv

def TOCTree.content : TOCTree → String
  | .node _ _ _ c _ _ => c

def TOCTree.endPage : TOCTree → Option Int
  | .node _ _ _ _ e _ => e

def TOCTree.children : TOCTree → List TOCTree
  | .node _ _ _ _ _ cs => cs

/-- The integer end page a resolved node reports (`_set_end_pages_and_content`
returns `node.end_page`, which is always set by then; default never fires on
resolved trees). -/
def TOCTree.endD (t : TOCTree) : Int := t.endPage.getD 0

/-- `PDFTOCChunker._process_outline` (document_chunking.py:92-144): walk the TOC
item list; an item whose level equals the current tree `level` becomes a node;
the maximal run of strictly deeper items that immediately follows is recursively
processed as its children at `level + 1`; items whose level does not match are
skipped. Returns the list of child trees attached to the given parent. -/
def processOutline (items : List TOCItem) (level : Nat) : List TOCTree :=
  match items with
  | [] => []
  | it :: rest =>
    if it.level = (level : Int) then
      let deeper := rest.takeWhile (fun x => decide (it.level < x.level))
      let remaining := rest.dropWhile (fun x => decide (it.level < x.level))
      TOCTree.node it.title (adjustPage it.page) level "" none
        (processOutline deeper (level + 1)) :: processOutline remaining level
    else
      processOutline rest level
termination_by items.length
decreasing_by
  · exact Nat.lt_succ_of_le (List.takeWhile_sublist _).length_le
  · exact Nat.lt_succ_of_le (List.dropWhile_sublist _).length_le
  · simp

mutual
/-- Number of nodes in a tree. -/
def TOCTree.size : TOCTree → Nat
  | .node _ _ _ _ _ cs => 1 + sizeForest cs
/-- Number of nodes in a forest. -/
def sizeForest : List TOCTree → Nat
  | [] => 0
  | t :: ts => TOCTree.size t + sizeForest ts
end

/-- Text of page `i` (the model of `self.doc.load_page(i).get_text()`). -/
def pageText (doc : List String) (i : Int) : String := doc.getD i.toNat ""

/-- The in-bounds iteration of `_extract_content`'s `for` loop: starting at page
`s`, `n` iterations, each appending the page text and a newline when the index
is inside `[0, page_count)`. -/
def extractGo (doc : List String) (s : Int) : Nat → String
  | 0 => ""
  | n + 1 =>
    (if 0 ≤ s ∧ s < (doc.length : Int) then pageText doc s ++ "\n" else "")
      ++ extractGo doc (s + 1) n

/-- `PDFTOCChunker._extract_content` (document_chunking.py:206-217): empty on an
inverted range, otherwise the concatenation of `text + "\n"` over the pages of
`[start, end]` that lie inside the document. -/
def extractContent (doc : List String) (s e : Int) : String :=
  if s > e then "" else extractGo doc s (e + 1 - s).toNat

/-- The non-leaf branch of `_set_end_pages_and_content`
(document_chunking.py:175-204), applied to the already-resolved children `cs`:
`end_page` is the max of the children's end pages (the `-1`-initialised
`last_child_end_page` fold), replaced by `page_num` when that fold is `-1` or
smaller than `page_num`; content is the pages before the first child's start
page `fcp` (the first child's `page_num`, which resolution never changes), or
empty when the first child starts on the same page or earlier; the final
correction re-extracts the node's own page when the content ended up empty and
`end_page` had to be lifted. -/
def internalNode (doc : List String) (t : String) (p : Int) (lv : Nat) (fcp : Int)
    (cs : List TOCTree) : TOCTree :=
  let lastEnd := cs.foldl (fun a c => max a c.endD) (-1)
  let e1 := if lastEnd ≠ -1 then lastEnd else p
  let c1 := if fcp > p then extractContent doc p (fcp - 1) else ""
  if e1 < p then
    .node t p lv (if c1 = "" then extractContent doc p p else c1) (some p) cs
  else
    .node t p lv c1 (some e1) cs

mutual
/-- `PDFTOCChunker._set_end_pages_and_content` (document_chunking.py:146-204).
`next` is `next_section_start_page`: the next sibling's `page_num` when the
caller knows one, `page_count` otherwise (no parent, or last child); it is only
read in the leaf branch, exactly as in the source.  A leaf gets
`end_page = max(page_num, min(next - 1, page_count - 1))` and its pages' text;
an internal node gets the max of its children's end pages (corrected up to its
own `page_num` when smaller) and, as content, the pages strictly before its
first child's start page (empty when the first child starts on the same page or
earlier). -/
def setEndPagesAndContent (doc : List String) (next : Int) : TOCTree → TOCTree
  | .node t p lv _ _ [] =>
    let ep := max p (min (next - 1) ((doc.length : Int) - 1))
    .node t p lv (extractContent doc p ep) (some ep) []
  | .node t p lv _ _ (ch :: chs) =>
    internalNode doc t p lv ch.startPage (setSiblings doc (ch :: chs))
/-- Resolves a sibling list left to right: each sibling's
`next_section_start_page` is the next sibling's `page_num`; the last sibling
falls back to `page_count` (document_chunking.py:158-165). -/
def setSiblings (doc : List String) : List TOCTree → List TOCTree
  | [] => []
  | [c] => [setEndPagesAndContent doc (doc.length : Int) c]
  | c :: c' :: rest =>
    setEndPagesAndContent doc c'.startPage c :: setSiblings doc (c' :: rest)
end

/-- The no-TOC fallback loop of `build_toc_tree` (document_chunking.py:79-81):
`content += page.get_text() + "\n"` over every page. -/
def fullTextLoop (doc : List String) : String :=
  doc.foldl (fun acc s => acc ++ s ++ "\n") ""

/-- `PDFTOCChunker.build_toc_tree` (document_chunking.py:66-90): with no TOC the
root absorbs the whole document; otherwise `_process_outline` builds the tree
under the root (`TOCNode(title="Document Root", page_num=0, level=0)`) and
`_set_end_pages_and_content` resolves spans and contents. -/
def buildTocTree (toc : List TOCItem) (doc : List String) : TOCTree :=
  if toc = [] then
    .node "Document Root" 0 0 (fullTextLoop doc) (some ((doc.length : Int) - 1)) []
  else
    setEndPagesAndContent doc (doc.length : Int)
      (.node "Document Root" 0 0 "" none (processOutline toc 1))

/-- The flattened output record built by `PDFTOCChunker.get_text_nodes`
(document_chunking.py:231-313) for one `TOCNode`: the LlamaIndex `TextNode` id,
the metadata fields (`title`, `level`, `page_label`, `start_page_idx`,
`end_page_idx`), the text, and the PARENT / CHILD relationship ids. -/
structure NodeRec where
  rid : Nat
  title : String
  level : Nat
  content : String
  startPageIdx : Int
  endPageIdx : Option Int
  pageLabel : String
  parentId : Option Nat
  childIds : List Nat
deriving DecidableEq, Repr

/-- `page_label` (document_chunking.py:252-256): `"{p+1}-{e+1}"` when the end
page is known and strictly larger, else `"{p+1}"`. -/
def pageLabel (p : Int) (e : Option Int) : String :=
  match e with
  | some ep => if ep > p then toString (p + 1) ++ "-" ++ toString (ep + 1)
               else toString (p + 1)
  | none => toString (p + 1)

/-- Ids of a sibling list when the first sibling receives id `k` and each
subtree occupies a contiguous block of pre-order ids. -/
def childIdsFrom : List TOCTree → Nat → List Nat
  | [], _ => []
  | t :: ts, k => k :: childIdsFrom ts (k + t.size)

mutual
/-- `get_text_nodes` record construction: the map from `TOCNode` object
identity to fresh uuid ids is modelled by pre-order indices (`get_all_nodes`
lists the tree in pre-order, document_chunking.py:219-229); `myId` is this
node's index, its children get the following blocks. -/
def makeRecs : TOCTree → Option Nat → Nat → List NodeRec
  | .node t p lv c e cs, pid, myId =>
    { rid := myId, title := t, level := lv, content := c, startPageIdx := p,
      endPageIdx := e, pageLabel := pageLabel p e, parentId := pid,
      childIds := childIdsFrom cs (myId + 1) } :: makeRecsForest cs myId (myId + 1)
/-- Records of a sibling forest, parent id `pid`, first free id `nextId`. -/
def makeRecsForest : List TOCTree → Nat → Nat → List NodeRec
  | [], _, _ => []
  | t :: ts, pid, nextId =>
    makeRecs t (some pid) nextId ++ makeRecsForest ts pid (nextId + t.size)
end

/-- Python's `not content.strip()`: the content has no non-whitespace
character.  (`String.trim` itself is not kernel-reducible, so the test is
modelled on the character list.) -/
def isBlank (s : String) : Bool := s.toList.all Char.isWhitespace

/-- The root-skipping rule of `get_text_nodes` (document_chunking.py:294):
`toc_node.title == "Document Root" and not toc_node.content.strip() and
toc_node.level == 0`. -/
def skipRec (r : NodeRec) : Bool :=
  r.title == "Document Root" && isBlank r.content && r.level == 0

/-- `PDFTOCChunker.get_text_nodes` (document_chunking.py:231-313): every node of
the pre-order listing becomes a record except those matching the root-skipping
rule. -/
def getTextNodes (t : TOCTree) : List NodeRec :=
  (makeRecs t none 0).filter (fun r => !skipRec r)

/-- `DocumentNode` of data_model.py: uuid ids are modelled as `Nat`; the
metadata bag and the float `y_position` carry no graph information and are
omitted. -/
structure DGNode where
  nodeId : Nat
  title : String
  content : String
  level : Int
  pageNum : Int
  endPage : Option Int
  parentId : Option Nat
  childrenIds : List Nat
deriving DecidableEq, Repr

/-- `DocumentGraph` of data_model.py: the `self.nodes` dict keyed by node id
(modelled as an association list; dict keys are unique), plus `root_id`. -/
structure DocumentGraph where
  nodes : List (Nat × DGNode)
  rootId : Nat
deriving DecidableEq, Repr

/-- Association-list lookup, the model of `dict.get` on `self.nodes` (dict keys
are unique, so first-match lookup agrees with the dict). -/
def lookupNode : List (Nat × DGNode) → Nat → Option DGNode
  | [], _ => none
  | p :: l, id => if p.1 = id then some p.2 else lookupNode l id

/-- `self.nodes.get(node_id)` — `DocumentGraph.get_node`. -/
def DocumentGraph.getNode (g : DocumentGraph) (id : Nat) : Option DGNode :=
  lookupNode g.nodes id

/-- Updates the entry stored under `id` (dict item assignment / in-place object
mutation). -/
def DocumentGraph.updateNode (g : DocumentGraph) (id : Nat) (f : DGNode → DGNode) :
    DocumentGraph :=
  { g with nodes := g.nodes.map (fun p => if p.1 = id then (p.1, f p.2) else p) }

/-- `DocumentGraph.add_child` (data_model.py:88-106): `False` when either id is
unknown; when the child is not yet among the parent's `children_ids`, append it
and overwrite the child's `parent_id`, returning `True`; otherwise a no-op
returning `False`. -/
def DocumentGraph.addChild (g : DocumentGraph) (parentId childId : Nat) :
    Bool × DocumentGraph :=
  match g.getNode parentId, g.getNode childId with
  | some pn, some _ =>
    if childId ∈ pn.childrenIds then (false, g)
    else
      (true,
        (g.updateNode parentId
            (fun n => { n with childrenIds := n.childrenIds ++ [childId] })).updateNode
          childId (fun n => { n with parentId := some parentId }))
  | _, _ => (false, g)

/-- `DocumentGraph.get_parent` (data_model.py:209-214). -/
def DocumentGraph.getParent (g : DocumentGraph) (id : Nat) : Option DGNode :=
  match g.getNode id with
  | none => none
  | some n =>
    match n.parentId with
    | none => none
    | some pid => g.getNode pid

/-- The `while` loop of `get_ancestors` (data_model.py:221-227).  The Python
loop runs until a node without `parent_id` is reached (and would diverge on a
parent cycle); fuel bounds the iteration count, and every theorem below
supplies enough fuel for the chain at hand. -/
def ancestorsAux (g : DocumentGraph) : Nat → DGNode → List DGNode
  | 0, _ => []
  | fuel + 1, cur =>
    match cur.parentId with
    | none => []
    | some _ =>
      match g.getParent cur.nodeId with
      | none => []
      | some p => p :: ancestorsAux g fuel p

/-- `DocumentGraph.get_ancestors` (data_model.py:216-229): walk parents from
the node, appending each found parent, nearest first. -/
def DocumentGraph.getAncestors (g : DocumentGraph) (id : Nat) : List DGNode :=
  match g.getNode id with
  | none => []
  | some n => ancestorsAux g g.nodes.length n

mutual
/-- Every node of the tree has its end page set and `end_page >= page_num`
(spec §8 / claim C7). -/
def endGeStart : TOCTree → Bool
  | .node _ p _ _ e cs =>
    (match e with | some ep => decide (p ≤ ep) | none => false) && endGeStartForest cs
/-- `endGeStart` over a forest. -/
def endGeStartForest : List TOCTree → Bool
  | [] => true
  | t :: ts => endGeStart t && endGeStartForest ts
end

mutual
/-- Every node's `page_num` lies within the document: `0 ≤ page ≤ count - 1`
(the HeadingStream positions point at real document units). -/
def pagesInRange (count : Int) : TOCTree → Bool
  | .node _ p _ _ _ cs =>
    (decide (0 ≤ p) && decide (p ≤ count - 1)) && pagesInRangeForest count cs
/-- `pagesInRange` over a forest. -/
def pagesInRangeForest (count : Int) : List TOCTree → Bool
  | [] => true
  | t :: ts => pagesInRange count t && pagesInRangeForest count ts
end

mutual
/-- Every child starts no earlier than its parent (the tree of a
position-sorted HeadingStream). -/
def childMono : TOCTree → Bool
  | .node _ p _ _ _ cs =>
    cs.all (fun c => decide (p ≤ c.startPage)) && childMonoForest cs
/-- `childMono` over a forest. -/
def childMonoForest : List TOCTree → Bool
  | [] => true
  | t :: ts => childMono t && childMonoForest ts
end

mutual
/-- All nodes of a tree, the tree's own root first (pre-order). -/
def nodesOf : TOCTree → List TOCTree
  | .node t p lv c e cs => .node t p lv c e cs :: descForest cs
/-- All nodes of a forest. -/
def descForest : List TOCTree → List TOCTree
  | [] => []
  | t :: ts => nodesOf t ++ descForest ts
end

/-- Claim C4's per-sibling-list check, `pe` being the parent's resolved end
page: a leaf with a following sibling ends at
`max(own start, sibling start - 1)`; a leaf that is the last child ends exactly
at its parent's end. -/
def c4pairs (pe : Option Int) : List TOCTree → Bool
  | [] => true
  | [c] => if c.children.isEmpty then c.endPage == pe else true
  | c :: c' :: rest =>
    (if c.children.isEmpty then
       c.endPage == some (max c.startPage (c'.startPage - 1))
     else true)
      && c4pairs pe (c' :: rest)

mutual
/-- Claim C4's check at every node of the tree. -/
def c4check : TOCTree → Bool
  | .node _ _ _ _ e cs => c4pairs e cs && c4forest cs
/-- `c4check` over a forest. -/
def c4forest : List TOCTree → Bool
  | [] => true
  | t :: ts => c4check t && c4forest ts
end

/-- Concatenation of a list of page texts, each followed by a newline. -/
def joinPages (l : List String) : String :=
  l.foldl (fun acc s => acc ++ s ++ "\n") ""

/-- The text of the page slice `[s, e]` of the document, each page followed by
a newline (what `_extract_content` produces on an in-bounds range). -/
def sliceText (doc : List String) (s e : Int) : String :=
  joinPages ((doc.drop s.toNat).take (e + 1 - s).toNat)

mutual
/-- Claim C5's check at every internal node: the end page is the maximum end
page among the node's descendants (an attained upper bound), and the content is
exactly the pages from the node's own start up to the page before its first
child's start (empty when the first child starts on the same page). -/
def c5check (doc : List String) : TOCTree → Bool
  | .node _ p _ c e cs =>
    (match cs with
     | [] => true
     | ch :: _ =>
       (descForest cs).all (fun x => decide (x.endD ≤ e.getD 0)) &&
       (descForest cs).any (fun x => x.endD == e.getD 0) &&
       (c == sliceText doc p (ch.startPage - 1)))
      && c5forest doc cs
/-- `c5check` over a forest. -/
def c5forest (doc : List String) : List TOCTree → Bool
  | [] => true
  | t :: ts => c5check doc t && c5forest doc ts
end

/-- Every node whose `parent_id` is unset is the root: the rootedness
well-formedness of a graph, checked entry-wise over the node store. -/
def wellRooted (g : DocumentGraph) : Bool :=
  g.nodes.all (fun p =>
    match p.2.parentId with
    | none => decide (p.1 = g.rootId)
    | some _ => true)

/-- The ancestor chain of parent links starting at `parent_id = o`: each link
resolves in the node store, the stored node carries its own key as `node_id`,
and the chain ends at a node with no parent.  The list is nearest-first by
construction. -/
inductive AncChain (g : DocumentGraph) : Option Nat → List DGNode → Prop where
  | nil : AncChain g none []
  | cons {pid : Nat} {pn : DGNode} {rest : List DGNode} :
      g.getNode pid = some pn → pn.nodeId = pid →
      AncChain g pn.parentId rest → AncChain g (some pid) (pn :: rest)

/-- A concrete four-node graph (root 0 with children 1 and 2; node 3 a child
of node 1), used to instantiate the `DocumentGraph` theorems. -/
def exampleGraph : DocumentGraph :=
  { nodes :=
      [(0, ⟨0, "Document Root", "", 0, 0, none, none, [1, 2]⟩),
       (1, ⟨1, "A", "", 1, 0, none, some 0, [3]⟩),
       (2, ⟨2, "B", "", 1, 1, none, some 0, []⟩),
       (3, ⟨3, "C", "", 2, 0, none, some 1, []⟩)],
    rootId := 0 }

/-- Strong induction over `TOCTree` through the nested `List` of children. -/
theorem TOCTree.ind {motive : TOCTree → Prop}
    (h : ∀ t p lv c e cs, (∀ x ∈ cs, motive x) → motive (.node t p lv c e cs)) :
    ∀ t, motive t := by
  have key : ∀ n (t : TOCTree), sizeOf t ≤ n → motive t := by
    intro n
    induction n with
    | zero =>
      intro t ht
      cases t with
      | node a b c d e cs => simp [TOCTree.node.sizeOf_spec] at ht
    | succ n ih =>
      intro t ht
      cases t with
      | node a b c d e cs =>
        apply h
        intro x hx
        apply ih
        have h1 := List.sizeOf_lt_of_mem hx
        have h2 : sizeOf cs < sizeOf (TOCTree.node a b c d e cs) := by
          simp [TOCTree.node.sizeOf_spec]
        omega
  exact fun t => key (sizeOf t) t (Nat.le_refl _)

theorem endGeStartForest_iff (l : List TOCTree) :
    endGeStartForest l = true ↔ ∀ x ∈ l, endGeStart x = true := by
  induction l with
  | nil => simp [endGeStartForest]
  | cons t ts ih => simp [endGeStartForest, ih]

theorem pagesInRangeForest_iff (count : Int) (l : List TOCTree) :
    pagesInRangeForest count l = true ↔ ∀ x ∈ l, pagesInRange count x = true := by
  induction l with
  | nil => simp [pagesInRangeForest]
  | cons t ts ih => simp [pagesInRangeForest, ih]

theorem childMonoForest_iff (l : List TOCTree) :
    childMonoForest l = true ↔ ∀ x ∈ l, childMono x = true := by
  induction l with
  | nil => simp [childMonoForest]
  | cons t ts ih => simp [childMonoForest, ih]

theorem c4forest_iff (l : List TOCTree) :
    c4forest l = true ↔ ∀ x ∈ l, c4check x = true := by
  induction l with
  | nil => simp [c4forest]
  | cons t ts ih => simp [c4forest, ih]

theorem c5forest_iff (doc : List String) (l : List TOCTree) :
    c5forest doc l = true ↔ ∀ x ∈ l, c5check doc x = true := by
  induction l with
  | nil => simp [c5forest]
  | cons t ts ih => simp [c5forest, ih]

theorem mem_setSiblings {doc : List String} :
    ∀ {cs : List TOCTree} {x : TOCTree}, x ∈ setSiblings doc cs →
      ∃ t ∈ cs, ∃ nx, x = setEndPagesAndContent doc nx t := by
  intro cs
  induction cs with
  | nil => intro x hx; simp [setSiblings] at hx
  | cons c rest ih =>
    cases rest with
    | nil =>
      intro x hx
      simp [setSiblings] at hx
      exact ⟨c, by simp, (doc.length : Int), hx⟩
    | cons c' rest' =>
      intro x hx
      rw [setSiblings] at hx
      rcases List.mem_cons.mp hx with h | h
      · exact ⟨c, by simp, c'.startPage, h⟩
      · obtain ⟨t, ht, nx, rfl⟩ := ih h
        exact ⟨t, List.mem_cons_of_mem _ ht, nx, rfl⟩

theorem setSiblings_nil (doc : List String) : setSiblings doc [] = [] := by
  rw [setSiblings]

theorem setSiblings_ne_nil {doc : List String} {cs : List TOCTree} (h : cs ≠ []) :
    setSiblings doc cs ≠ [] := by
  cases cs with
  | nil => exact absurd rfl h
  | cons c rest =>
    cases rest with
    | nil => rw [setSiblings]; simp
    | cons c' rest' => rw [setSiblings]; simp

theorem internalNode_shape (doc : List String) (t : String) (p : Int) (lv : Nat)
    (fcp : Int) (cs : List TOCTree) :
    ∃ c' e', internalNode doc t p lv fcp cs = .node t p lv c' (some e') cs ∧ p ≤ e' := by
  simp only [internalNode]
  repeat' split
  all_goals exact ⟨_, _, rfl, by omega⟩

theorem resolve_shape (doc : List String) (next : Int) (a : String) (p : Int)
    (lv : Nat) (c : String) (e : Option Int) (cs : List TOCTree) :
    ∃ c' e', setEndPagesAndContent doc next (.node a p lv c e cs) =
        .node a p lv c' (some e') (setSiblings doc cs) ∧ p ≤ e' := by
  cases cs with
  | nil =>
    refine ⟨extractContent doc p (max p (min (next - 1) ((doc.length : Int) - 1))),
      max p (min (next - 1) ((doc.length : Int) - 1)), ?_, le_max_left _ _⟩
    rw [setEndPagesAndContent, setSiblings]
  | cons ch chs =>
    rw [setEndPagesAndContent]
    exact internalNode_shape doc a p lv ch.startPage (setSiblings doc (ch :: chs))

theorem resolve_startPage (doc : List String) (next : Int) (t : TOCTree) :
    (setEndPagesAndContent doc next t).startPage = t.startPage := by
  cases t with
  | node a p lv c e cs =>
    obtain ⟨c', e', heq, -⟩ := resolve_shape doc next a p lv c e cs
    rw [heq]; rfl

theorem resolve_title (doc : List String) (next : Int) (t : TOCTree) :
    (setEndPagesAndContent doc next t).title = t.title := by
  cases t with
  | node a p lv c e cs =>
    obtain ⟨c', e', heq, -⟩ := resolve_shape doc next a p lv c e cs
    rw [heq]; rfl

theorem resolve_level (doc : List String) (next : Int) (t : TOCTree) :
    (setEndPagesAndContent doc next t).level = t.level := by
  cases t with
  | node a p lv c e cs =>
    obtain ⟨c', e', heq, -⟩ := resolve_shape doc next a p lv c e cs
    rw [heq]; rfl

theorem resolve_children (doc : List String) (next : Int) (t : TOCTree) :
    (setEndPagesAndContent doc next t).children = setSiblings doc t.children := by
  cases t with
  | node a p lv c e cs =>
    obtain ⟨c', e', heq, -⟩ := resolve_shape doc next a p lv c e cs
    rw [heq]; rfl

theorem resolve_end_ge (doc : List String) (next : Int) (t : TOCTree) :
    ∃ ep, (setEndPagesAndContent doc next t).endPage = some ep ∧ t.startPage ≤ ep := by
  cases t with
  | node a p lv c e cs =>
    obtain ⟨c', e', heq, hle⟩ := resolve_shape doc next a p lv c e cs
    exact ⟨e', by rw [heq]; rfl, hle⟩

theorem foldl_append_newline (l : List String) :
    ∀ acc, l.foldl (fun a s => a ++ s ++ "\n") acc = acc ++ joinPages l := by
  induction l with
  | nil => intro acc; simp [joinPages]
  | cons x xs ih =>
    intro acc
    have h1 := ih (acc ++ x ++ "\n")
    have h2 := ih ("" ++ x ++ "\n")
    simp only [List.foldl_cons, joinPages] at h1 h2 ⊢
    rw [h1, h2]
    simp [String.append_assoc]

theorem joinPages_cons (x : String) (l : List String) :
    joinPages (x :: l) = x ++ "\n" ++ joinPages l := by
  rw [joinPages, List.foldl_cons, foldl_append_newline]
  simp [String.append_assoc]

theorem extractGo_eq_joinPages (doc : List String) :
    ∀ (n : Nat) (s : Int), 0 ≤ s → s + n ≤ (doc.length : Int) →
      extractGo doc s n = joinPages ((doc.drop s.toNat).take n) := by
  intro n
  induction n with
  | zero => intro s _ _; simp [extractGo, joinPages]
  | succ n ih =>
    intro s hs hle
    have hlt : s < (doc.length : Int) := by omega
    have hin : (0 ≤ s ∧ s < (doc.length : Int)) := ⟨hs, hlt⟩
    have hsn : s.toNat < doc.length := by omega
    rw [extractGo, if_pos hin, ih (s + 1) (by omega) (by omega)]
    have hdrop : doc.drop s.toNat = doc[s.toNat] :: doc.drop (s.toNat + 1) :=
      List.drop_eq_getElem_cons hsn
    have hs1 : (s + 1).toNat = s.toNat + 1 := by omega
    rw [hs1, hdrop, List.take_succ_cons, joinPages_cons]
    have hpt : pageText doc s = doc[s.toNat] := by
      simp [pageText, List.getD_eq_getElem?_getD, List.getElem?_eq_getElem hsn]
    rw [hpt, String.append_assoc]

theorem extract_eq_slice (doc : List String) (s e : Int) (hs : 0 ≤ s)
    (he : e ≤ (doc.length : Int) - 1) :
    extractContent doc s e = sliceText doc s e := by
  rw [extractContent, sliceText]
  by_cases h : s > e
  · rw [if_pos h]
    have : (e + 1 - s).toNat = 0 := by omega
    rw [this]
    simp [joinPages]
  · rw [if_neg h, extractGo_eq_joinPages doc (e + 1 - s).toNat s hs (by omega)]

theorem fullTextLoop_eq_extract (doc : List String) :
    fullTextLoop doc = extractContent doc 0 ((doc.length : Int) - 1) := by
  cases doc with
  | nil => rfl
  | cons x xs =>
    rw [extract_eq_slice _ _ _ (le_refl 0) (le_refl _), fullTextLoop, sliceText]
    have h1 : ((((x :: xs).length : Int) - 1) + 1 - 0).toNat = (x :: xs).length := by
      simp
    rw [h1]
    simp [joinPages]

theorem resolve_endGeStart (doc : List String) :
    ∀ t : TOCTree, ∀ next : Int, endGeStart (setEndPagesAndContent doc next t) = true := by
  refine TOCTree.ind
    (motive := fun t => ∀ next, endGeStart (setEndPagesAndContent doc next t) = true) ?_
  intro a p lv c e cs ih next
  obtain ⟨c', e', heq, hle⟩ := resolve_shape doc next a p lv c e cs
  rw [heq, endGeStart]
  simp only [Bool.and_eq_true]
  refine ⟨by simp [hle], ?_⟩
  rw [endGeStartForest_iff]
  intro x hx
  obtain ⟨tc, htc, nx, rfl⟩ := mem_setSiblings hx
  exact ih tc htc nx

/-- Claim C7: after span resolution (`_set_end_pages_and_content`, run on any
tree, document and `next_section_start_page` default), every node of the
resulting tree has its end page set and `end_page >= page_num`.  Leaves get
`max(page_num, ...)`; internal nodes are corrected up to `page_num` when the
children's maximum falls short, so the invariant holds unconditionally. -/
theorem claim_C7_end_ge_start (doc : List String) (next : Int) (t : TOCTree) :
    endGeStart (setEndPagesAndContent doc next t) = true :=
  resolve_endGeStart doc t next

/-- Claim C6: on an empty heading stream, `build_toc_tree` succeeds and yields
exactly the root node — no children, content equal to the full document text
(the same text `_extract_content` yields for the whole position range
`[0, page_count - 1]`), and end position `page_count - 1`, the last position of
the document. -/
theorem claim_C6_empty_stream (doc : List String) :
    buildTocTree [] doc =
      TOCTree.node "Document Root" 0 0
        (extractContent doc 0 ((doc.length : Int) - 1))
        (some ((doc.length : Int) - 1)) [] := by
  rw [buildTocTree]
  simp [fullTextLoop_eq_extract doc]

theorem chain'_takeWhile {α : Type} {R : α → α → Prop} {p : α → Bool} :
    ∀ {l : List α}, List.Chain' R l → List.Chain' R (l.takeWhile p) := by
  intro l
  induction l with
  | nil => intro _; simp
  | cons a l ih =>
    intro h
    rw [List.takeWhile_cons]
    by_cases hpa : p a = true
    · rw [if_pos hpa]
      rw [List.chain'_cons'] at h ⊢
      refine ⟨?_, ih h.2⟩
      intro y hy
      apply h.1
      cases l with
      | nil => simp at hy
      | cons b l' =>
        rw [List.takeWhile_cons] at hy
        by_cases hpb : p b = true
        · rw [if_pos hpb] at hy; simp at hy ⊢; exact hy
        · rw [if_neg hpb] at hy; simp at hy
    · rw [if_neg hpa]; simp
  
theorem chain'_dropWhile {α : Type} {R : α → α → Prop} {p : α → Bool} :
    ∀ {l : List α}, List.Chain' R l → List.Chain' R (l.dropWhile p) := by
  intro l
  induction l with
  | nil => intro _; simp
  | cons a l ih =>
    intro h
    rw [List.dropWhile_cons]
    by_cases hpa : p a = true
    · rw [if_pos hpa]
      exact ih (List.chain'_cons'.mp h).2
    · rw [if_neg hpa]; exact h

theorem head?_takeWhile_cases {α : Type} (p : α → Bool) (l : List α) :
    ∀ b, (l.takeWhile p).head? = some b → l.head? = some b ∧ p b = true := by
  cases l with
  | nil => intro b hb; simp at hb
  | cons x xs =>
    intro b hb
    rw [List.takeWhile_cons] at hb
    by_cases hpx : p x = true
    · rw [if_pos hpx] at hb
      simp at hb
      subst hb
      exact ⟨rfl, hpx⟩
    · rw [if_neg hpx] at hb; simp at hb

theorem processOutline_size_of_gapFree :
    ∀ (n : Nat) (items : List TOCItem) (lv : Nat),
      items.length ≤ n →
      (∀ x ∈ items, (lv : Int) ≤ x.level) →
      (∀ it, items.head? = some it → it.level = (lv : Int)) →
      List.Chain' (fun a b => b.level ≤ a.level + 1) items →
      sizeForest (processOutline items lv) = items.length := by
  intro n
  induction n with
  | zero =>
    intro items lv hlen _ _ _
    have hnil : items = [] := List.length_eq_zero.mp (Nat.le_zero.mp hlen)
    subst hnil
    rw [processOutline, sizeForest]
    rfl
  | succ n ih =>
    intro items lv hlen hmin hhead hchain
    match items with
    | [] => rw [processOutline, sizeForest]; rfl
    | it :: rest =>
      have hit : it.level = (lv : Int) := hhead it rfl
      have hchain' := List.chain'_cons'.mp hchain
      simp only [processOutline, if_pos hit]
      rw [sizeForest, TOCTree.size]
      have hd := ih (rest.takeWhile (fun x => decide (it.level < x.level))) (lv + 1)
        (le_trans (List.takeWhile_sublist _).length_le (by simp at hlen; omega))
        (by
          intro x hx
          have hp := List.mem_takeWhile_imp hx
          simp only [decide_eq_true_eq] at hp
          push_cast
          omega)
        (by
          intro b hb
          obtain ⟨hbh, hpb⟩ := head?_takeWhile_cases _ _ b hb
          have hrel := hchain'.1 b hbh
          simp only [decide_eq_true_eq] at hpb
          push_cast
          omega)
        (chain'_takeWhile hchain'.2)
      have hr := ih (rest.dropWhile (fun x => decide (it.level < x.level))) lv
        (le_trans (List.dropWhile_sublist _).length_le (by simp at hlen; omega))
        (by
          intro x hx
          exact hmin x (List.mem_cons_of_mem _ ((List.dropWhile_sublist _).subset hx)))
        (by
          intro b hb
          have hnot := List.head?_dropWhile_not (fun x => decide (it.level < x.level)) rest
          rw [hb] at hnot
          simp only [decide_eq_false_iff_not, not_lt] at hnot
          have hbmem : b ∈ rest.dropWhile (fun x => decide (it.level < x.level)) := by
            cases hcase : rest.dropWhile (fun x => decide (it.level < x.level)) with
            | nil => rw [hcase] at hb; simp at hb
            | cons y ys =>
              rw [hcase] at hb
              simp at hb
              subst hb
              simp
          have hge := hmin b (List.mem_cons_of_mem _ ((List.dropWhile_sublist _).subset hbmem))
          omega)
        (chain'_dropWhile hchain'.2)
      rw [hd, hr]
      have hsum : (rest.takeWhile (fun x => decide (it.level < x.level))).length +
          (rest.dropWhile (fun x => decide (it.level < x.level))).length = rest.length := by
        rw [← List.length_append, List.takeWhile_append_dropWhile]
      simp only [List.length_cons]
      omega

/-- Claim C1, counterexample: for the heading stream
`[(1,"A",p0),(3,"B",p1)]` the built graph does not contain any node titled
`"B"` at all — the whole tree is the root plus the single childless node `A`
(2 nodes), so the level-3 heading is dropped rather than attached under `A`. -/
theorem claim_C1_counterexample :
    (nodesOf (buildTocTree [⟨1, "A", 1⟩, ⟨3, "B", 2⟩] ["x", "y"])).map TOCTree.title
        = ["Document Root", "A"] ∧
    TOCTree.size (buildTocTree [⟨1, "A", 1⟩, ⟨3, "B", 2⟩] ["x", "y"]) = 2 := by
  constructor <;>
    simp +decide [buildTocTree, processOutline, setEndPagesAndContent, setSiblings,
      internalNode, extractContent, extractGo, pageText, adjustPage, TOCTree.startPage,
      TOCTree.endD, TOCTree.endPage, nodesOf, descForest, TOCTree.title, TOCTree.size,
      sizeForest]

/-- Claim C1 (amended): `_process_outline` only attaches an item when its TOC
level is exactly one deeper than its parent's; on the stream
`[(1,"A",p0),(3,"B",p1)]` the level-3 heading `B` is collected as a candidate
child of `A` but discarded by the recursive call at level 2, so the built and
resolved graph is exactly root → A with `A` childless and spanning the whole
document. -/
theorem claim_C1_level_gap :
    buildTocTree [⟨1, "A", 1⟩, ⟨3, "B", 2⟩] ["x", "y"] =
      TOCTree.node "Document Root" 0 0 "" (some 1)
        [TOCTree.node "A" 0 1 "x\ny\n" (some 1) []] := by
  simp +decide [buildTocTree, processOutline, setEndPagesAndContent, setSiblings,
    internalNode, extractContent, extractGo, pageText, adjustPage, TOCTree.startPage,
    TOCTree.endD, TOCTree.endPage]

/-- Claim C2, counterexample: the single-heading stream `[(2,"X",p0)]` has
`k = 1` headings with strictly increasing positions, but the constructed graph
holds `0` nodes besides the root — `_process_outline` drops the heading because
its level is not the expected level 1. -/
theorem claim_C2_counterexample :
    sizeForest (processOutline [⟨2, "X", 1⟩] 1) = 0 := by
  simp +decide [processOutline, sizeForest]

/-- Claim C2 (amended): for a heading stream whose first heading has level 1,
whose levels are all ≥ 1 and never increase by more than one step at a time
(no skipped levels on the way down), the graph built by `_process_outline`
contains exactly `k = toc.length` nodes in addition to the root.  (The
positions play no role in the node count; without the level restriction the
claim fails, see the counterexample.) -/
theorem claim_C2_node_count (toc : List TOCItem)
    (hfirst : (toc.head?.all fun it => it.level == 1) = true)
    (hpos : ∀ x ∈ toc, 1 ≤ x.level)
    (hstep : List.Chain' (fun a b => b.level ≤ a.level + 1) toc) :
    sizeForest (processOutline toc 1) = toc.length := by
  apply processOutline_size_of_gapFree toc.length toc 1 (le_refl _)
  · intro x hx
    have := hpos x hx
    push_cast
    omega
  · intro it h
    rw [h] at hfirst
    simp only [Option.all_some, beq_iff_eq] at hfirst
    push_cast
    omega
  · exact hstep

/-- Witness for C2 on the spec's level sequence 1,2,3,2,1: five headings give
five non-root nodes. -/
theorem claim_C2_node_count_witness :
    sizeForest (processOutline
      [⟨1, "A", 1⟩, ⟨2, "B", 2⟩, ⟨3, "C", 3⟩, ⟨2, "D", 4⟩, ⟨1, "E", 5⟩] 1) = 5 :=
  claim_C2_node_count _ (by decide) (by decide) (by simp [List.chain'_cons])

theorem lookupNode_map_update (l : List (Nat × DGNode)) (id id' : Nat) (f : DGNode → DGNode) :
    lookupNode (l.map (fun p => if p.1 = id then (p.1, f p.2) else p)) id' =
      if id' = id then (lookupNode l id').map f else lookupNode l id' := by
  induction l with
  | nil => rw [List.map_nil]; cases Decidable.em (id' = id) <;> simp [lookupNode, *]
  | cons hd tl ih =>
    rw [List.map_cons]
    by_cases h1 : hd.1 = id <;> by_cases h2 : hd.1 = id'
    · subst h1; subst h2
      simp [lookupNode]
    · subst h1
      simp [lookupNode, h2, Ne.symm h2, ih]
    · subst h2
      simp [lookupNode, h1, ih]
    · simp [lookupNode, h1, h2, ih]

theorem getNode_updateNode (g : DocumentGraph) (id : Nat) (f : DGNode → DGNode)
    (id' : Nat) :
    (g.updateNode id f).getNode id' =
      if id' = id then (g.getNode id').map f else g.getNode id' := by
  unfold DocumentGraph.updateNode DocumentGraph.getNode
  exact lookupNode_map_update g.nodes id id' f

/-- Claim C3, counterexample: in `exampleGraph`, node 3 already has parent 1,
yet `add_child(2, 3)` succeeds (returns `True`) and mutates the graph — the
child's parent edge is silently overwritten instead of the call failing. -/
theorem claim_C3_counterexample :
    (exampleGraph.addChild 2 3).1 = true ∧ (exampleGraph.addChild 2 3).2 ≠ exampleGraph := by
  decide

/-- Claim C3 (amended): `add_child` returns `False` and leaves the graph
unchanged when either id is unknown, and also when the child is already among
the parent's children (the repeated call is an idempotent no-op); but when both
ids are known and the child is not yet among that parent's children, the call
succeeds even if the child already has a different parent: it returns `True`,
appends the child to the new parent's `children_ids` and overwrites the child's
`parent_id` (the old parent's list is not cleaned up).  It never throws (the
operation is total). -/
theorem claim_C3_add_child (g : DocumentGraph) (pid cid : Nat) :
    (g.getNode pid = none ∨ g.getNode cid = none → g.addChild pid cid = (false, g)) ∧
    (∀ pn, g.getNode pid = some pn → cid ∈ pn.childrenIds →
      g.addChild pid cid = (false, g)) ∧
    (∀ pn cn, g.getNode pid = some pn → g.getNode cid = some cn →
      cid ∉ pn.childrenIds →
      (g.addChild pid cid).1 = true ∧
      ((g.addChild pid cid).2.getNode cid).map DGNode.parentId = some (some pid) ∧
      ((g.addChild pid cid).2.getNode pid).map DGNode.childrenIds =
        some (pn.childrenIds ++ [cid])) := by
  refine ⟨?_, ?_, ?_⟩
  · intro h
    cases hp : g.getNode pid with
    | none => simp [DocumentGraph.addChild, hp]
    | some pn =>
      cases hc : g.getNode cid with
      | none => simp [DocumentGraph.addChild, hp, hc]
      | some cn => rcases h with h | h <;> simp_all
  · intro pn hp hmem
    cases hc : g.getNode cid with
    | none => simp [DocumentGraph.addChild, hp, hc]
    | some cn => simp [DocumentGraph.addChild, hp, hc, hmem]
  · intro pn cn hp hc hmem
    have heq : g.addChild pid cid =
        (true,
          (g.updateNode pid
              (fun n => { n with childrenIds := n.childrenIds ++ [cid] })).updateNode
            cid (fun n => { n with parentId := some pid })) := by
      simp [DocumentGraph.addChild, hp, hc, hmem]
    refine ⟨by rw [heq], ?_, ?_⟩
    · rw [heq, getNode_updateNode, if_pos rfl, getNode_updateNode]
      by_cases hsame : cid = pid
      · subst hsame
        rw [if_pos rfl, hp]
        rfl
      · rw [if_neg hsame, hc]
        rfl
    · rw [heq, getNode_updateNode]
      by_cases hsame : pid = cid
      · subst hsame
        rw [if_pos rfl, getNode_updateNode, if_pos rfl, hp]
        rfl
      · rw [if_neg hsame, getNode_updateNode, if_pos rfl, hp]
        rfl

/-- Witness for C3: in `exampleGraph`, `add_child(9, 3)` (unknown parent) and
`add_child(1, 3)` (already linked) are failing no-ops, while `add_child(2, 3)`
(child with a different parent) succeeds. -/
theorem claim_C3_add_child_witness :
    exampleGraph.addChild 9 3 = (false, exampleGraph) ∧
    exampleGraph.addChild 1 3 = (false, exampleGraph) ∧
    (exampleGraph.addChild 2 3).1 = true :=
  ⟨(claim_C3_add_child exampleGraph 9 3).1 (Or.inl (by decide)),
   (claim_C3_add_child exampleGraph 1 3).2.1 ⟨1, "A", "", 1, 0, none, some 0, [3]⟩
     (by decide) (by decide),
   ((claim_C3_add_child exampleGraph 2 3).2.2 ⟨2, "B", "", 1, 1, none, some 0, []⟩
     ⟨3, "C", "", 2, 0, none, some 1, []⟩ (by decide) (by decide) (by decide)).1⟩

theorem ancestorsAux_eq (g : DocumentGraph) {o : Option Nat} {l : List DGNode}
    (hc : AncChain g o l) :
    ∀ (cur : DGNode), g.getNode cur.nodeId = some cur → cur.parentId = o →
      ∀ (fuel : Nat), l.length ≤ fuel → ancestorsAux g fuel cur = l := by
  induction hc with
  | nil =>
    intro cur hcur ho fuel _
    cases fuel with
    | zero => rfl
    | succ f => rw [ancestorsAux, ho]
  | cons hpid hnid hrest ih =>
    rename_i pid pn rest
    intro cur hcur ho fuel hfuel
    cases fuel with
    | zero => simp at hfuel
    | succ f =>
      have hgp : g.getParent cur.nodeId = some pn := by
        simp only [DocumentGraph.getParent, hcur, ho]
        exact hpid
      rw [ancestorsAux, ho, hgp]
      show pn :: ancestorsAux g f pn = pn :: rest
      have hpn : g.getNode pn.nodeId = some pn := by rw [hnid]; exact hpid
      rw [ih pn hpn rfl f (by simp at hfuel; omega)]

theorem ancChain_nil_inv {g : DocumentGraph} {o : Option Nat}
    (h : AncChain g o ([] : List DGNode)) : o = none := by
  cases h
  rfl

theorem ancChain_getLast (g : DocumentGraph) :
    ∀ {o : Option Nat} {l : List DGNode}, AncChain g o l →
      ∀ r, l.getLast? = some r → g.getNode r.nodeId = some r ∧ r.parentId = none := by
  intro o l hc
  induction hc with
  | nil => intro r hr; simp at hr
  | cons hpid hnid hrest ih =>
    rename_i pid pn rest
    intro r hr
    cases rest with
    | nil =>
      simp at hr
      subst hr
      exact ⟨by rw [hnid]; exact hpid, ancChain_nil_inv hrest⟩
    | cons b bs =>
      rw [List.getLast?_cons_cons] at hr
      exact ih r hr

theorem lookupNode_mem {l : List (Nat × DGNode)} {k : Nat} {n : DGNode}
    (h : lookupNode l k = some n) : (k, n) ∈ l := by
  induction l with
  | nil => simp [lookupNode] at h
  | cons hd tl ih =>
    rw [lookupNode] at h
    by_cases hk : hd.1 = k
    · rw [if_pos hk] at h
      simp at h
      subst h
      subst hk
      simp
    · rw [if_neg hk] at h
      exact List.mem_cons_of_mem _ (ih h)

/-- Claim C10: `get_ancestors` returns `[]` without throwing for an unknown id
and for the root (a node with no `parent_id`); for a node whose parent links
form a chain (each stored under its own id, resolving in the node store and
ending at a parent-less node), it returns exactly that chain, nearest parent
first; and in a well-rooted graph (the only parent-less nodes are the root) the
final element of a non-empty ancestor list is the root. -/
theorem claim_C10_get_ancestors (g : DocumentGraph) (id : Nat) :
    (g.getNode id = none → g.getAncestors id = []) ∧
    (∀ n, g.getNode id = some n → n.parentId = none → g.getAncestors id = []) ∧
    (∀ n l, g.getNode id = some n → n.nodeId = id → AncChain g n.parentId l →
      l.length ≤ g.nodes.length →
      g.getAncestors id = l ∧
      (wellRooted g = true → ∀ r, l.getLast? = some r → r.nodeId = g.rootId)) := by
  refine ⟨?_, ?_, ?_⟩
  · intro h
    rw [DocumentGraph.getAncestors, h]
  · intro n hn hp
    rw [DocumentGraph.getAncestors, hn]
    show ancestorsAux g g.nodes.length n = []
    generalize g.nodes.length = f
    cases f with
    | zero => rfl
    | succ f' => rw [ancestorsAux, hp]
  · intro n l hn hid hc hlen
    constructor
    · rw [DocumentGraph.getAncestors, hn]
      exact ancestorsAux_eq g hc n (by rw [hid]; exact hn) rfl _ hlen
    · intro hwr r hr
      obtain ⟨hrn, hrp⟩ := ancChain_getLast g hc r hr
      have hmem : (r.nodeId, r) ∈ g.nodes := lookupNode_mem hrn
      have := List.all_eq_true.mp hwr _ hmem
      simp only [hrp] at this
      exact of_decide_eq_true this

/-- Witness for C10 on `exampleGraph`: id 9 is unknown (empty result), the root
has no ancestors, and node 3's ancestors are node 1 then the root. -/
theorem claim_C10_get_ancestors_witness :
    exampleGraph.getAncestors 9 = [] ∧
    exampleGraph.getAncestors 0 = [] ∧
    (exampleGraph.getAncestors 3 =
      [⟨1, "A", "", 1, 0, none, some 0, [3]⟩,
       ⟨0, "Document Root", "", 0, 0, none, none, [1, 2]⟩] ∧
     True) := by
  refine ⟨(claim_C10_get_ancestors exampleGraph 9).1 (by decide),
    (claim_C10_get_ancestors exampleGraph 0).2.1
      ⟨0, "Document Root", "", 0, 0, none, none, [1, 2]⟩ (by decide) rfl, ?_, trivial⟩
  have h := (claim_C10_get_ancestors exampleGraph 3).2.2
    ⟨3, "C", "", 2, 0, none, some 1, []⟩
    [⟨1, "A", "", 1, 0, none, some 0, [3]⟩,
     ⟨0, "Document Root", "", 0, 0, none, none, [1, 2]⟩]
    (by decide) rfl ?_ (by decide)
  · exact h.1
  · exact AncChain.cons (by decide) rfl (AncChain.cons (by decide) rfl AncChain.nil)

theorem le_foldl_max_init (l : List Int) (a : Int) : a ≤ l.foldl max a := by
  induction l generalizing a with
  | nil => exact le_refl a
  | cons x xs ih => exact le_trans (le_max_left a x) (ih (max a x))

theorem le_foldl_max_of_mem {x : Int} {l : List Int} (a : Int) (hx : x ∈ l) :
    x ≤ l.foldl max a := by
  induction l generalizing a with
  | nil => simp at hx
  | cons y ys ih =>
    rcases List.mem_cons.mp hx with h | h
    · subst h
      exact le_trans (le_max_right a x) (le_foldl_max_init ys (max a x))
    · exact ih _ h

theorem foldl_max_le {b : Int} (l : List Int) (a : Int) (ha : a ≤ b)
    (h : ∀ x ∈ l, x ≤ b) : l.foldl max a ≤ b := by
  induction l generalizing a with
  | nil => exact ha
  | cons y ys ih =>
    exact ih (max a y) (max_le ha (h y (List.mem_cons_self y ys)))
      (fun x hx => h x (List.mem_cons_of_mem _ hx))

theorem foldl_max_eq_or_mem (l : List Int) (a : Int) :
    l.foldl max a = a ∨ l.foldl max a ∈ l := by
  induction l generalizing a with
  | nil => exact Or.inl rfl
  | cons y ys ih =>
    rcases ih (max a y) with h | h
    · rw [List.foldl_cons, h]
      rcases le_total a y with hle | hle
      · exact Or.inr (by simp [max_eq_right hle])
      · exact Or.inl (max_eq_left hle)
    · exact Or.inr (List.mem_cons_of_mem _ h)

theorem treeFold_eq_mapFold (cs : List TOCTree) (a : Int) :
    cs.foldl (fun a c => max a c.endD) a = (cs.map TOCTree.endD).foldl max a := by
  rw [List.foldl_map]

theorem resolve_leaf_eq (doc : List String) (nx : Int) (a : String) (p : Int)
    (lv : Nat) (c : String) (e : Option Int) :
    setEndPagesAndContent doc nx (.node a p lv c e []) =
      .node a p lv
        (extractContent doc p (max p (min (nx - 1) ((doc.length : Int) - 1))))
        (some (max p (min (nx - 1) ((doc.length : Int) - 1)))) [] := by
  rw [setEndPagesAndContent]

theorem internalNode_endD_le (doc : List String) (t : String) (p : Int) (lv : Nat)
    (fcp : Int) (cs : List TOCTree) :
    (internalNode doc t p lv fcp cs).endD ≤
      max p (cs.foldl (fun a c => max a c.endD) (-1)) := by
  simp only [internalNode]
  repeat' split
  all_goals simp only [TOCTree.endD, TOCTree.endPage, Option.getD_some]
  all_goals first
    | exact le_max_left _ _
    | exact le_max_right _ _

theorem internalNode_content_of_le (doc : List String) (t : String) (p : Int)
    (lv : Nat) (fcp : Int) (cs : List TOCTree) (hp : 0 ≤ p)
    (h : p ≤ cs.foldl (fun a c => max a c.endD) (-1)) :
    internalNode doc t p lv fcp cs =
      .node t p lv (if fcp > p then extractContent doc p (fcp - 1) else "")
        (some (cs.foldl (fun a c => max a c.endD) (-1))) cs := by
  simp only [internalNode]
  have hne : cs.foldl (fun a c => max a c.endD) (-1) ≠ -1 := by omega
  rw [if_pos hne, if_neg (by omega)]

theorem resolve_endD_le (doc : List String) :
    ∀ t : TOCTree, pagesInRange (doc.length : Int) t = true →
      ∀ nx : Int, (setEndPagesAndContent doc nx t).endD ≤ (doc.length : Int) - 1 := by
  refine TOCTree.ind (motive := fun t => pagesInRange (doc.length : Int) t = true →
    ∀ nx, (setEndPagesAndContent doc nx t).endD ≤ (doc.length : Int) - 1) ?_
  intro a p lv c e cs ih hpr nx
  rw [pagesInRange] at hpr
  simp only [Bool.and_eq_true, decide_eq_true_eq] at hpr
  obtain ⟨⟨hp0, hple⟩, hforest⟩ := hpr
  cases cs with
  | nil =>
    rw [resolve_leaf_eq]
    simp only [TOCTree.endD, TOCTree.endPage, Option.getD_some]
    omega
  | cons ch chs =>
    rw [setEndPagesAndContent]
    refine le_trans (internalNode_endD_le doc a p lv ch.startPage _) ?_
    have hL : (setSiblings doc (ch :: chs)).foldl (fun a c => max a c.endD) (-1) ≤
        (doc.length : Int) - 1 := by
      rw [treeFold_eq_mapFold]
      refine foldl_max_le _ _ (by omega) ?_
      intro x hx
      obtain ⟨x', hx', rfl⟩ := List.mem_map.mp hx
      obtain ⟨tc, htc, nxc, rfl⟩ := mem_setSiblings hx'
      exact ih tc htc ((pagesInRangeForest_iff _ _).mp hforest tc htc) nxc
    exact max_le hple hL

theorem setSiblings_getLast (doc : List String) :
    ∀ (cs : List TOCTree) (cl : TOCTree), cs.getLast? = some cl →
      (setSiblings doc cs).getLast? =
        some (setEndPagesAndContent doc (doc.length : Int) cl) := by
  intro cs
  induction cs with
  | nil => intro cl hcl; simp at hcl
  | cons c rest ih =>
    intro cl hcl
    cases rest with
    | nil =>
      simp at hcl
      subst hcl
      rw [setSiblings]
      rfl
    | cons c' rest' =>
      rw [List.getLast?_cons_cons] at hcl
      rw [setSiblings]
      obtain ⟨y, ys, hys⟩ : ∃ y ys, setSiblings doc (c' :: rest') = y :: ys := by
        cases hcase : setSiblings doc (c' :: rest') with
        | nil => exact absurd hcase (setSiblings_ne_nil (by simp))
        | cons y ys => exact ⟨y, ys, rfl⟩
      rw [hys, List.getLast?_cons_cons, ← hys]
      exact ih cl hcl

theorem setSiblings_cons_shape (doc : List String) (c : TOCTree) (rest : List TOCTree) :
    ∃ nx tl, setSiblings doc (c :: rest) = setEndPagesAndContent doc nx c :: tl := by
  cases rest with
  | nil => exact ⟨(doc.length : Int), [], by rw [setSiblings]⟩
  | cons c' rest' => exact ⟨c'.startPage, _, by rw [setSiblings]⟩

theorem internal_end_of_lastLeaf (doc : List String) (a : String) (p : Int)
    (lv : Nat) (c : String) (e : Option Int) (cs : List TOCTree) (cl : TOCTree)
    (hlast : cs.getLast? = some cl) (hleaf : cl.children = [])
    (hpr : pagesInRange (doc.length : Int) (.node a p lv c e cs) = true) (nx : Int) :
    (setEndPagesAndContent doc nx (.node a p lv c e cs)).endPage =
      some ((doc.length : Int) - 1) := by
  rw [pagesInRange] at hpr
  simp only [Bool.and_eq_true, decide_eq_true_eq] at hpr
  obtain ⟨⟨hp0, hple⟩, hforest⟩ := hpr
  cases cs with
  | nil => simp at hlast
  | cons ch chs =>
    rw [setEndPagesAndContent]
    have hclmem : cl ∈ ch :: chs := List.mem_of_getLast?_eq_some hlast
    have hclpr : pagesInRange (doc.length : Int) cl = true :=
      (pagesInRangeForest_iff _ _).mp hforest cl hclmem
    have hLle : (setSiblings doc (ch :: chs)).foldl (fun a c => max a c.endD) (-1) ≤
        (doc.length : Int) - 1 := by
      rw [treeFold_eq_mapFold]
      refine foldl_max_le _ _ (by omega) ?_
      intro x hx
      obtain ⟨x', hx', rfl⟩ := List.mem_map.mp hx
      obtain ⟨tc, htc, nxc, rfl⟩ := mem_setSiblings hx'
      exact resolve_endD_le doc tc ((pagesInRangeForest_iff _ _).mp hforest tc htc) nxc
    have hlastres := setSiblings_getLast doc (ch :: chs) cl hlast
    have hclend : (setEndPagesAndContent doc (doc.length : Int) cl).endD =
        (doc.length : Int) - 1 := by
      cases cl with
      | node acl pcl lvcl ccl ecl cscl =>
        simp only [TOCTree.children] at hleaf
        subst hleaf
        rw [resolve_leaf_eq]
        simp only [TOCTree.endD, TOCTree.endPage, Option.getD_some]
        rw [pagesInRange] at hclpr
        simp only [Bool.and_eq_true, decide_eq_true_eq] at hclpr
        omega
    have hLge : ((doc.length : Int) - 1) ≤
        (setSiblings doc (ch :: chs)).foldl (fun a c => max a c.endD) (-1) := by
      rw [treeFold_eq_mapFold]
      rw [← hclend]
      refine le_foldl_max_of_mem _ ?_
      exact List.mem_map_of_mem _ (List.mem_of_getLast?_eq_some hlastres)
    have hLeq : (setSiblings doc (ch :: chs)).foldl (fun a c => max a c.endD) (-1) =
        (doc.length : Int) - 1 := le_antisymm hLle hLge
    rw [internalNode_content_of_le doc a p lv ch.startPage _ hp0 (by omega), hLeq]
    rfl

theorem c4pairs_setSiblings (doc : List String) :
    ∀ (cs : List TOCTree) (pe : Int),
      (∀ x ∈ cs, pagesInRange (doc.length : Int) x = true) →
      (∀ cl, cs.getLast? = some cl → cl.children = [] →
        pe = (doc.length : Int) - 1) →
      c4pairs (some pe) (setSiblings doc cs) = true := by
  intro cs
  induction cs with
  | nil =>
    intro pe _ _
    rw [setSiblings, c4pairs]
  | cons c rest ih =>
    intro pe hrange hlast
    cases rest with
    | nil =>
      rw [setSiblings, c4pairs]
      cases hcc : c.children with
      | cons cch ccs =>
        have hne : (setEndPagesAndContent doc (doc.length : Int) c).children ≠ [] := by
          rw [resolve_children, hcc]
          exact setSiblings_ne_nil (by simp)
        rw [if_neg (by simpa [List.isEmpty_iff] using hne)]
      | nil =>
        cases c with
        | node ac pc lvc cc ec csc =>
          simp only [TOCTree.children] at hcc
          subst hcc
          have hcpr := hrange _ (List.mem_cons_self _ _)
          rw [pagesInRange] at hcpr
          simp only [Bool.and_eq_true, decide_eq_true_eq] at hcpr
          obtain ⟨⟨hpc0, hpcle⟩, -⟩ := hcpr
          rw [if_pos (by rw [resolve_children]; simp [TOCTree.children, setSiblings])]
          rw [resolve_leaf_eq]
          have hpe : pe = (doc.length : Int) - 1 := hlast _ rfl rfl
          simp only [TOCTree.endPage]
          rw [hpe]
          have hmax : max pc (min ((doc.length : Int) - 1) ((doc.length : Int) - 1)) =
              (doc.length : Int) - 1 := by omega
          rw [hmax]
          simp
    | cons c' rest' =>
      rw [setSiblings]
      obtain ⟨y, ys, hys⟩ : ∃ y ys, setSiblings doc (c' :: rest') = y :: ys := by
        cases hcase : setSiblings doc (c' :: rest') with
        | nil => exact absurd hcase (setSiblings_ne_nil (by simp))
        | cons y ys => exact ⟨y, ys, rfl⟩
      rw [hys, c4pairs]
      simp only [Bool.and_eq_true]
      constructor
      · cases hcc : c.children with
        | cons cch ccs =>
          have hne : (setEndPagesAndContent doc c'.startPage c).children ≠ [] := by
            rw [resolve_children, hcc]
            exact setSiblings_ne_nil (by simp)
          rw [if_neg (by simpa [List.isEmpty_iff] using hne)]
        | nil =>
          cases c with
          | node ac pc lvc cc ec csc =>
            simp only [TOCTree.children] at hcc
            subst hcc
            have hcpr := hrange _ (List.mem_cons_self _ _)
            rw [pagesInRange] at hcpr
            simp only [Bool.and_eq_true, decide_eq_true_eq] at hcpr
            obtain ⟨⟨hpc0, hpcle⟩, -⟩ := hcpr
            cases c' with
            | node ac' pc' lvc' cc' ec' csc' =>
              have hypr := hrange (TOCTree.node ac' pc' lvc' cc' ec' csc') (by simp)
              rw [pagesInRange] at hypr
              simp only [Bool.and_eq_true, decide_eq_true_eq] at hypr
              obtain ⟨⟨hpc'0, hpc'le⟩, -⟩ := hypr
              rw [if_pos (by rw [resolve_children]; simp [TOCTree.children, setSiblings])]
              rw [resolve_leaf_eq]
              have hystart : y.startPage = pc' := by
                obtain ⟨nx', tl', hshape⟩ := setSiblings_cons_shape doc _ rest'
                rw [hshape] at hys
                have hy : y = setEndPagesAndContent doc nx' _ :=
                  (List.cons.injEq _ _ _ _ ▸ hys).1.symm
                rw [hy, resolve_startPage, TOCTree.startPage]
              rw [hystart]
              simp only [TOCTree.endPage, TOCTree.startPage]
              have hmax : max pc (min (pc' - 1) ((doc.length : Int) - 1)) =
                  max pc (pc' - 1) := by omega
              rw [hmax]
              simp
      · rw [← hys]
        exact ih pe (fun x hx => hrange x (List.mem_cons_of_mem _ hx))
          (fun cl hcl hclc => hlast cl (by rw [List.getLast?_cons_cons]; exact hcl) hclc)

theorem resolve_c4check (doc : List String) :
    ∀ t : TOCTree, pagesInRange (doc.length : Int) t = true →
      ∀ nx : Int, c4check (setEndPagesAndContent doc nx t) = true := by
  refine TOCTree.ind (motive := fun t => pagesInRange (doc.length : Int) t = true →
    ∀ nx, c4check (setEndPagesAndContent doc nx t) = true) ?_
  intro a p lv c e cs ih hpr nx
  obtain ⟨c', e', heq, -⟩ := resolve_shape doc nx a p lv c e cs
  have hforest : pagesInRangeForest (doc.length : Int) cs = true := by
    rw [pagesInRange] at hpr
    simp only [Bool.and_eq_true] at hpr
    exact hpr.2
  rw [heq, c4check]
  simp only [Bool.and_eq_true]
  constructor
  · cases cs with
    | nil =>
      rw [setSiblings, c4pairs]
    | cons ch chs =>
      apply c4pairs_setSiblings doc (ch :: chs) e'
        ((pagesInRangeForest_iff _ _).mp hforest)
      intro cl h1 h2
      have hend := internal_end_of_lastLeaf doc a p lv c e (ch :: chs) cl h1 h2 hpr nx
      rw [heq] at hend
      simpa [TOCTree.endPage] using hend
  · rw [c4forest_iff]
    intro x hx
    obtain ⟨tc, htc, nxc, rfl⟩ := mem_setSiblings hx
    exact ih tc htc ((pagesInRangeForest_iff _ _).mp hforest tc htc) nxc

theorem processOutline_pagesInRange (count : Int) :
    ∀ (n : Nat) (items : List TOCItem) (lv : Nat), items.length ≤ n →
      (∀ x ∈ items, 1 ≤ x.page ∧ x.page ≤ count) →
      pagesInRangeForest count (processOutline items lv) = true := by
  intro n
  induction n with
  | zero =>
    intro items lv hlen _
    have hnil : items = [] := List.length_eq_zero.mp (Nat.le_zero.mp hlen)
    subst hnil
    rw [processOutline, pagesInRangeForest]
  | succ n ih =>
    intro items lv hlen hpages
    match items with
    | [] => rw [processOutline, pagesInRangeForest]
    | it :: rest =>
      simp only [processOutline]
      split
      · rw [pagesInRangeForest, pagesInRange]
        simp only [Bool.and_eq_true, decide_eq_true_eq]
        have hitp := hpages it (List.mem_cons_self _ _)
        refine ⟨⟨⟨?_, ?_⟩, ?_⟩, ?_⟩
        · rw [adjustPage, if_pos (by omega)]
          omega
        · rw [adjustPage, if_pos (by omega)]
          omega
        · refine ih _ (lv + 1) (le_trans (List.takeWhile_sublist _).length_le
            (by simp at hlen; omega)) ?_
          intro x hx
          exact hpages x (List.mem_cons_of_mem _ ((List.takeWhile_sublist _).subset hx))
        · refine ih _ lv (le_trans (List.dropWhile_sublist _).length_le
            (by simp at hlen; omega)) ?_
          intro x hx
          exact hpages x (List.mem_cons_of_mem _ ((List.dropWhile_sublist _).subset hx))
      · refine ih rest lv (by simp at hlen; omega) ?_
        intro x hx
        exact hpages x (List.mem_cons_of_mem _ hx)

/-- Claim C4, counterexample: two sibling headings on the same page
(`[(1,"A",p0),(1,"B",p0)]`).  `A` is a leaf with a following sibling, and the
position immediately preceding `B`'s start would be `p0 - 1 = -1`; but the code
clamps the leaf's end to `max(page_num, ...)`, so `A` ends at `0`, not `-1`
(both siblings start at page 0, as the second component shows). -/
theorem claim_C4_counterexample :
    (buildTocTree [⟨1, "A", 1⟩, ⟨1, "B", 1⟩] ["x", "y"]).children.map TOCTree.endPage
        = [some 0, some 1] ∧
    (buildTocTree [⟨1, "A", 1⟩, ⟨1, "B", 1⟩] ["x", "y"]).children.map TOCTree.startPage
        = [0, 0] := by
  constructor <;>
    simp +decide [buildTocTree, processOutline, setEndPagesAndContent, setSiblings,
      internalNode, extractContent, extractGo, pageText, adjustPage, TOCTree.startPage,
      TOCTree.endD, TOCTree.endPage, TOCTree.children]

/-- Claim C4 (amended): after span resolution of a tree built from a heading
stream whose pages lie inside the document, every leaf with a following sibling
ends at `max(own start, sibling start - 1)` — which is the position immediately
preceding the sibling's start whenever the sibling starts strictly later — and
every leaf that is the last child of its parent ends exactly at its parent's
end position (the parent's span; both equal the last document position). -/
theorem claim_C4_leaf_spans (toc : List TOCItem) (doc : List String)
    (hpage : ∀ x ∈ toc, 1 ≤ x.page ∧ x.page ≤ (doc.length : Int))
    (hdoc : doc ≠ []) :
    c4check (buildTocTree toc doc) = true := by
  rw [buildTocTree]
  by_cases htoc : toc = []
  · rw [if_pos htoc, c4check, c4pairs, c4forest]
    rfl
  · rw [if_neg htoc]
    apply resolve_c4check
    rw [pagesInRange]
    simp only [Bool.and_eq_true, decide_eq_true_eq]
    have hlen : 1 ≤ doc.length := by
      cases doc with
      | nil => exact absurd rfl hdoc
      | cons _ _ => simp
    refine ⟨⟨le_refl 0, by omega⟩, ?_⟩
    exact processOutline_pagesInRange _ toc.length toc 1 (le_refl _) hpage

/-- Witness for C4 on the spec's scenario 4: stream `[(1,"A",p0),(1,"B",p3)]`
over a six-page document. -/
theorem claim_C4_leaf_spans_witness :
    c4check (buildTocTree [⟨1, "A", 1⟩, ⟨1, "B", 4⟩]
      ["p0", "p1", "p2", "p3", "p4", "p5"]) = true :=
  claim_C4_leaf_spans _ _ (by decide) (by decide)

theorem adjustPage_mono {a b : Int} (h : a ≤ b) : adjustPage a ≤ adjustPage b := by
  unfold adjustPage
  split <;> split <;> omega

theorem pagesInRange_bounds {count : Int} {t : TOCTree}
    (h : pagesInRange count t = true) : 0 ≤ t.startPage ∧ t.startPage ≤ count - 1 := by
  cases t with
  | node a p lv c e cs =>
    rw [pagesInRange] at h
    simp only [Bool.and_eq_true, decide_eq_true_eq] at h
    exact ⟨h.1.1, h.1.2⟩

theorem mem_nodesOf_self (t : TOCTree) : t ∈ nodesOf t := by
  cases t with
  | node a p lv c e cs => rw [nodesOf]; exact List.mem_cons_self _ _

theorem mem_descForest {x : TOCTree} :
    ∀ {l : List TOCTree}, x ∈ descForest l ↔ ∃ y ∈ l, x ∈ nodesOf y := by
  intro l
  induction l with
  | nil => rw [descForest]; simp
  | cons y ys ih =>
    rw [descForest]
    simp only [List.mem_append, ih, List.mem_cons]
    constructor
    · rintro (h | ⟨z, hz, hx⟩)
      · exact ⟨y, Or.inl rfl, h⟩
      · exact ⟨z, Or.inr hz, hx⟩
    · rintro ⟨z, hz | hz, hx⟩
      · subst hz
        exact Or.inl hx
      · exact Or.inr ⟨z, hz, hx⟩

theorem c5_bound_all (doc : List String) (y : TOCTree) (h : c5check doc y = true) :
    ∀ x ∈ nodesOf y, x.endD ≤ y.endD := by
  cases y with
  | node a p lv c e cs =>
    intro x hx
    rw [nodesOf] at hx
    rcases List.mem_cons.mp hx with h1 | h1
    · subst h1
      exact le_refl _
    · cases cs with
      | nil => rw [descForest] at h1; simp at h1
      | cons ch chs =>
        rw [c5check] at h
        simp only [Bool.and_eq_true, List.all_eq_true, decide_eq_true_eq] at h
        have := h.1.1.1 x h1
        simpa [TOCTree.endD, TOCTree.endPage] using this

theorem sliceText_same (doc : List String) (p : Int) :
    sliceText doc p (p - 1) = "" := by
  have h0 : (p - 1 + 1 - p).toNat = 0 := by omega
  rw [sliceText, h0, List.take_zero]
  rfl

theorem resolve_c5check (doc : List String) :
    ∀ t : TOCTree, pagesInRange (doc.length : Int) t = true → childMono t = true →
      ∀ nx : Int, c5check doc (setEndPagesAndContent doc nx t) = true := by
  refine TOCTree.ind (motive := fun t => pagesInRange (doc.length : Int) t = true →
    childMono t = true → ∀ nx, c5check doc (setEndPagesAndContent doc nx t) = true) ?_
  intro a p lv c e cs ih hpr hmono nx
  rw [pagesInRange] at hpr
  simp only [Bool.and_eq_true, decide_eq_true_eq] at hpr
  obtain ⟨⟨hp0, hple⟩, hforest⟩ := hpr
  rw [childMono] at hmono
  simp only [Bool.and_eq_true, List.all_eq_true, decide_eq_true_eq] at hmono
  obtain ⟨hmon, hmonof⟩ := hmono
  cases cs with
  | nil =>
    rw [resolve_leaf_eq, c5check, c5forest]
    rfl
  | cons ch chs =>
    rw [setEndPagesAndContent]
    have hL : p ≤ (setSiblings doc (ch :: chs)).foldl (fun a c => max a c.endD) (-1) := by
      obtain ⟨nx', tl', hshape⟩ := setSiblings_cons_shape doc ch chs
      obtain ⟨ep, hep, hge⟩ := resolve_end_ge doc nx' ch
      have hmem : setEndPagesAndContent doc nx' ch ∈ setSiblings doc (ch :: chs) := by
        rw [hshape]; exact List.mem_cons_self _ _
      have hendD : (setEndPagesAndContent doc nx' ch).endD = ep := by
        rw [TOCTree.endD, hep]; rfl
      rw [treeFold_eq_mapFold]
      calc p ≤ ch.startPage := hmon ch (List.mem_cons_self _ _)
        _ ≤ ep := hge
        _ = (setEndPagesAndContent doc nx' ch).endD := hendD.symm
        _ ≤ _ := le_foldl_max_of_mem _ (List.mem_map_of_mem _ hmem)
    rw [internalNode_content_of_le doc a p lv ch.startPage _ hp0 hL]
    obtain ⟨y, ys, hys⟩ : ∃ y ys, setSiblings doc (ch :: chs) = y :: ys := by
      cases hcase : setSiblings doc (ch :: chs) with
      | nil => exact absurd hcase (setSiblings_ne_nil (by simp))
      | cons y ys => exact ⟨y, ys, rfl⟩
    have hchild_check : ∀ x ∈ setSiblings doc (ch :: chs), c5check doc x = true := by
      intro x hx
      obtain ⟨tc, htc, nxc, rfl⟩ := mem_setSiblings hx
      exact ih tc htc ((pagesInRangeForest_iff _ _).mp hforest tc htc)
        ((childMonoForest_iff _).mp hmonof tc htc) nxc
    rw [hys, c5check]
    simp only [Bool.and_eq_true, List.all_eq_true, List.any_eq_true, decide_eq_true_eq,
      Option.getD_some, beq_iff_eq]
    refine ⟨⟨⟨?_, ?_⟩, ?_⟩, ?_⟩
    · -- bound: every node in the resolved sibling forest ends no later than L
      intro x hx
      rw [← hys] at hx
      obtain ⟨z, hz, hxz⟩ := mem_descForest.mp hx
      have hbound := c5_bound_all doc z (hchild_check z hz) x hxz
      have hzle : z.endD ≤ (setSiblings doc (ch :: chs)).foldl (fun a c => max a c.endD) (-1) := by
        rw [treeFold_eq_mapFold]
        exact le_foldl_max_of_mem _ (List.mem_map_of_mem _ hz)
      rw [hys] at hzle
      exact le_trans hbound hzle
    · -- attained: some node in the forest realises L
      rw [← hys]
      rcases foldl_max_eq_or_mem ((setSiblings doc (ch :: chs)).map TOCTree.endD) (-1)
        with hcase | hcase
      · rw [treeFold_eq_mapFold] at hL
        omega
      · rw [treeFold_eq_mapFold]
        obtain ⟨z, hz, hzeq⟩ := List.mem_map.mp hcase
        refine ⟨z, mem_descForest.mpr ⟨z, hz, mem_nodesOf_self z⟩, hzeq⟩
    · -- content is the preamble slice
      have hystart : y.startPage = ch.startPage := by
        obtain ⟨nx', tl', hshape⟩ := setSiblings_cons_shape doc ch chs
        rw [hshape] at hys
        have hy : y = setEndPagesAndContent doc nx' ch :=
          (List.cons.injEq _ _ _ _ ▸ hys).1.symm
        rw [hy, resolve_startPage]
      rw [hystart]
      by_cases hgt : ch.startPage > p
      · rw [if_pos hgt]
        have hbounds := pagesInRange_bounds ((pagesInRangeForest_iff _ _).mp hforest ch
          (List.mem_cons_self _ _))
        exact extract_eq_slice doc p (ch.startPage - 1) hp0 (by omega)
      · rw [if_neg hgt]
        have : ch.startPage = p :=
          le_antisymm (by omega) (hmon ch (List.mem_cons_self _ _))
        rw [this, sliceText_same]
    · -- recursive check on the children
      rw [← hys, c5forest_iff]
      exact hchild_check

theorem processOutline_childMono :
    ∀ (n : Nat) (items : List TOCItem) (lv : Nat), items.length ≤ n →
      items.Pairwise (fun a b => a.page ≤ b.page) →
      childMonoForest (processOutline items lv) = true ∧
      (∀ lb : Int, (∀ x ∈ items, lb ≤ x.page) →
        ∀ t ∈ processOutline items lv, adjustPage lb ≤ t.startPage) := by
  intro n
  induction n with
  | zero =>
    intro items lv hlen _
    have hnil : items = [] := List.length_eq_zero.mp (Nat.le_zero.mp hlen)
    subst hnil
    rw [processOutline]
    exact ⟨by rw [childMonoForest], by intro lb _ t ht; simp at ht⟩
  | succ n ih =>
    intro items lv hlen hpw
    match items with
    | [] =>
      rw [processOutline]
      exact ⟨by rw [childMonoForest], by intro lb _ t ht; simp at ht⟩
    | it :: rest =>
      have hpw' := List.pairwise_cons.mp hpw
      simp only [processOutline]
      split
      · have hdeep := ih (rest.takeWhile (fun x => decide (it.level < x.level))) (lv + 1)
          (le_trans (List.takeWhile_sublist _).length_le (by simp at hlen; omega))
          (hpw'.2.sublist (List.takeWhile_sublist _))
        have hrem := ih (rest.dropWhile (fun x => decide (it.level < x.level))) lv
          (le_trans (List.dropWhile_sublist _).length_le (by simp at hlen; omega))
          (hpw'.2.sublist (List.dropWhile_sublist _))
        constructor
        · rw [childMonoForest, childMono]
          simp only [Bool.and_eq_true, List.all_eq_true, decide_eq_true_eq]
          refine ⟨⟨?_, hdeep.1⟩, hrem.1⟩
          intro t ht
          simp only [TOCTree.startPage]
          exact hdeep.2 it.page
            (fun x hx => hpw'.1 x ((List.takeWhile_sublist _).subset hx)) t ht
        · intro lb hlb t ht
          rcases List.mem_cons.mp ht with h1 | h1
          · subst h1
            simp only [TOCTree.startPage]
            exact adjustPage_mono (hlb it (List.mem_cons_self _ _))
          · exact hrem.2 lb
              (fun x hx => hlb x (List.mem_cons_of_mem _ ((List.dropWhile_sublist _).subset hx)))
              t h1
      · have hrem := ih rest lv (by simp at hlen; omega) hpw'.2
        exact ⟨hrem.1, fun lb hlb t ht =>
          hrem.2 lb (fun x hx => hlb x (List.mem_cons_of_mem _ hx)) t ht⟩

/-- Claim C5: after span resolution of a tree built from a heading stream with
in-document pages sorted by position (the HeadingStream contract), every
internal node's end page is the maximum end page among all its descendants
(an attained upper bound), and its content is exactly the text of the pages
from its own start up to the page before its first child's start — empty when
the first child starts on the same page as the parent. -/
theorem claim_C5_internal_spans (toc : List TOCItem) (doc : List String)
    (hpage : ∀ x ∈ toc, 1 ≤ x.page ∧ x.page ≤ (doc.length : Int))
    (hsorted : toc.Pairwise (fun a b => a.page ≤ b.page))
    (hdoc : doc ≠ []) :
    c5check doc (buildTocTree toc doc) = true := by
  rw [buildTocTree]
  by_cases htoc : toc = []
  · rw [if_pos htoc, c5check, c5forest]
    rfl
  · rw [if_neg htoc]
    have hlen : 1 ≤ doc.length := by
      cases doc with
      | nil => exact absurd rfl hdoc
      | cons _ _ => simp
    apply resolve_c5check
    · rw [pagesInRange]
      simp only [Bool.and_eq_true, decide_eq_true_eq]
      refine ⟨⟨le_refl 0, by omega⟩, ?_⟩
      exact processOutline_pagesInRange _ toc.length toc 1 (le_refl _) hpage
    · rw [childMono]
      simp only [Bool.and_eq_true, List.all_eq_true, decide_eq_true_eq]
      have hb := processOutline_childMono toc.length toc 1 (le_refl _) hsorted
      refine ⟨?_, hb.1⟩
      intro t ht
      have := hb.2 0 (fun x hx => by have := hpage x hx; omega) t ht
      simpa [adjustPage] using this

/-- Witness for C5: stream `[(1,"A",p0),(2,"B",p1)]` over a three-page
document (the internal node `A` spans its child `B`'s end and owns the page-0
preamble before `B` starts on page 1). -/
theorem claim_C5_internal_spans_witness :
    c5check ["x", "y", "z"]
      (buildTocTree [⟨1, "A", 1⟩, ⟨2, "B", 2⟩] ["x", "y", "z"]) = true :=
  claim_C5_internal_spans _ _ (by decide) (by simp [List.pairwise_cons]) (by decide)

theorem makeRecsForest_rid_ge
    (cs : List TOCTree)
    (h : ∀ x ∈ cs, ∀ (pid : Option Nat) (myId : Nat), ∀ r ∈ makeRecs x pid myId,
      myId ≤ r.rid) :
    ∀ (pid k : Nat), ∀ r ∈ makeRecsForest cs pid k, k ≤ r.rid := by
  induction cs with
  | nil =>
    intro pid k r hr
    rw [makeRecsForest] at hr
    simp at hr
  | cons t ts ih =>
    intro pid k r hr
    rw [makeRecsForest] at hr
    rcases List.mem_append.mp hr with h1 | h1
    · exact h t (List.mem_cons_self _ _) (some pid) k r h1
    · have := ih (fun x hx => h x (List.mem_cons_of_mem _ hx)) pid (k + t.size) r h1
      omega

theorem makeRecs_rid_ge :
    ∀ (t : TOCTree) (pid : Option Nat) (myId : Nat), ∀ r ∈ makeRecs t pid myId,
      myId ≤ r.rid := by
  refine TOCTree.ind (motive := fun t => ∀ pid myId, ∀ r ∈ makeRecs t pid myId,
    myId ≤ r.rid) ?_
  intro a p lv c e cs ih pid myId r hr
  rw [makeRecs] at hr
  rcases List.mem_cons.mp hr with h1 | h1
  · subst h1
    exact le_refl _
  · have := makeRecsForest_rid_ge cs ih myId (myId + 1) r h1
    omega

theorem buildTocTree_shape (toc : List TOCItem) (doc : List String) :
    ∃ rc ee cs0, buildTocTree toc doc = .node "Document Root" 0 0 rc ee cs0 := by
  rw [buildTocTree]
  split
  · exact ⟨_, _, _, rfl⟩
  · obtain ⟨c', e', heq, -⟩ := resolve_shape doc (doc.length : Int) "Document Root" 0 0
      "" none (processOutline toc 1)
    exact ⟨c', some e', _, heq⟩

/-- Claim C8: in the flattened output of `get_text_nodes`, the synthetic root
(the unique record with pre-order id 0) is excluded exactly when its content is
blank (Python's `not content.strip()`); and on the empty-heading-stream
fallback with non-blank document text, the root is the sole emitted record. -/
theorem claim_C8_root_emission (toc : List TOCItem) (doc : List String) :
    (((getTextNodes (buildTocTree toc doc)).all fun r => r.rid != 0) = true ↔
      isBlank (buildTocTree toc doc).content = true) ∧
    (toc = [] → isBlank (fullTextLoop doc) = false →
      getTextNodes (buildTocTree toc doc) =
        [{ rid := 0, title := "Document Root", level := 0,
           content := fullTextLoop doc, startPageIdx := 0,
           endPageIdx := some ((doc.length : Int) - 1),
           pageLabel := pageLabel 0 (some ((doc.length : Int) - 1)),
           parentId := none, childIds := [] }]) := by
  obtain ⟨rc, ee, cs0, hR⟩ := buildTocTree_shape toc doc
  constructor
  · rw [hR, getTextNodes, makeRecs, TOCTree.content]
    set r0 : NodeRec :=
      { rid := 0, title := "Document Root", level := 0, content := rc,
        startPageIdx := 0, endPageIdx := ee, pageLabel := pageLabel 0 ee,
        parentId := none, childIds := childIdsFrom cs0 (0 + 1) } with hr0
    have hskip : skipRec r0 = isBlank rc := by
      rw [hr0]
      simp [skipRec]
    constructor
    · intro hall
      by_contra hnb
      rw [Bool.not_eq_true] at hnb
      have hmem : r0 ∈ (r0 :: makeRecsForest cs0 0 (0 + 1)).filter
          (fun r => !skipRec r) := by
        rw [List.mem_filter]
        exact ⟨List.mem_cons_self _ _, by rw [hskip, hnb]; rfl⟩
      have h0 := (List.all_eq_true.mp hall) _ hmem
      rw [hr0] at h0
      simp at h0
    · intro hb
      rw [List.all_eq_true]
      intro r hr
      rw [List.mem_filter] at hr
      rcases List.mem_cons.mp hr.1 with h1 | h1
      · exfalso
        have h2 := hr.2
        rw [h1, hskip, hb] at h2
        simp at h2
      · have := makeRecsForest_rid_ge cs0 (fun x _ => makeRecs_rid_ge x) 0 (0 + 1) r h1
        simp only [bne_iff_ne, ne_eq]
        omega
  · intro htoc hblank
    subst htoc
    rw [buildTocTree, if_pos rfl, getTextNodes, makeRecs, makeRecsForest, childIdsFrom,
      List.filter_cons]
    have hskip : skipRec
        { rid := 0, title := "Document Root", level := 0, content := fullTextLoop doc,
          startPageIdx := 0, endPageIdx := some ((doc.length : Int) - 1),
          pageLabel := pageLabel 0 (some ((doc.length : Int) - 1)),
          parentId := none, childIds := [] } = false := by
      simp [skipRec, hblank]
    rw [hskip]
    rfl

/-- Witness for C8: a one-page document with text `"hello"`, no TOC — the root
record, carrying the whole document text, is the sole emitted record. -/
theorem claim_C8_root_emission_witness :
    getTextNodes (buildTocTree [] ["hello"]) =
      [{ rid := 0, title := "Document Root", level := 0,
         content := fullTextLoop ["hello"], startPageIdx := 0,
         endPageIdx := some ((1 : Int) - 1),
         pageLabel := pageLabel 0 (some ((1 : Int) - 1)),
         parentId := none, childIds := [] }] :=
  (claim_C8_root_emission [] ["hello"]).2 rfl (by decide)

/-- Claim C9, code bug: for the single-heading stream `[(1,"A",p0)]` over a
one-page document, the root carries no content and is skipped by
`get_text_nodes`, yet the emitted record for `A` still holds a PARENT
relationship pointing at the skipped root's id (pre-order id 0), which belongs
to no emitted record — re-deriving edges from the flattened list cannot
reconstruct the graph, and the code's own comment ("its children won't have it
as a TextNode parent") says the opposite of what the code does. -/
theorem claim_C9_dangling_parent :
    getTextNodes (buildTocTree [⟨1, "A", 1⟩] ["x"]) =
      [{ rid := 1, title := "A", level := 1, content := "x\n", startPageIdx := 0,
         endPageIdx := some 0, pageLabel := pageLabel 0 (some 0),
         parentId := some 0, childIds := [] }] ∧
    ((getTextNodes (buildTocTree [⟨1, "A", 1⟩] ["x"])).all fun r =>
      match r.parentId with
      | some pid => (getTextNodes (buildTocTree [⟨1, "A", 1⟩] ["x"])).any
          (fun s => s.rid == pid)
      | none => true) = false := by
  constructor <;>
    simp +decide [getTextNodes, buildTocTree, processOutline, setEndPagesAndContent,
      setSiblings, internalNode, extractContent, extractGo, pageText, adjustPage,
      TOCTree.startPage, TOCTree.endD, TOCTree.endPage, TOCTree.children, TOCTree.size,
      sizeForest, makeRecs, makeRecsForest, childIdsFrom, skipRec, isBlank,
      List.filter]
